import Mathlib

/-!
Verification of the py-strsim core: string-similarity metrics over Unicode
scalar-value sequences, and the batch evaluator that maps one reference
string across many candidate strings.

Strings are modelled as their ordered sequences of Unicode scalar values
(`List ℕ`), produced by `str` (the Unicode sequencer of the spec).  The
metric algorithms live in namespace `strsim`: the crate the bindings of
`src/lib.rs` call into is not part of the repository sources, so those
algorithms are modelled from the specification (sections 4.2-4.8).  The
pyfunction wrappers live in namespaces `single` and `vectorized`,
mirroring `src/lib.rs`.
-/

/-- The Unicode sequencer: a string as its ordered list of Unicode scalar
values (codepoints), never raw bytes. -/
def str (s : String) : List ℕ := s.data.map Char.toNat

namespace strsim

/-- Modelled from the spec: `strsim::levenshtein` is absent from `src/`.
Classic dynamic-programming edit distance (spec 4.2): a cell is the min of
deletion, insertion and substitution costs from the neighboring cells,
with equal-character diagonal cost 0, written as the standard recurrence
on suffixes. -/
def levenshtein : List ℕ → List ℕ → ℕ
  | [], ys => ys.length
  | x :: xs, [] => (x :: xs).length
  | x :: xs, y :: ys =>
      min (levenshtein xs (y :: ys) + 1)
        (min (levenshtein (x :: xs) ys + 1)
          (levenshtein xs ys + (if x = y then 0 else 1)))
termination_by a b => a.length + b.length
decreasing_by
  all_goals simp only [List.length_cons]
  all_goals omega

/-- Modelled from the spec: `strsim::osa_distance` is absent from `src/`.
Same DP as Levenshtein plus an adjacent-transposition option at unit cost,
restricted so no substring is edited more than once (spec 4.3): the
transposition option only looks one diagonal back. -/
def osa_distance : List ℕ → List ℕ → ℕ
  | [], ys => ys.length
  | x :: xs, [] => (x :: xs).length
  | x :: xs, y :: ys =>
      let base :=
        min (osa_distance xs (y :: ys) + 1)
          (min (osa_distance (x :: xs) ys + 1)
            (osa_distance xs ys + (if x = y then 0 else 1)))
      match xs, ys with
      | x2 :: xs', y2 :: ys' =>
          if x = y2 ∧ x2 = y then min (osa_distance xs' ys' + 1) base else base
      | _, _ => base
termination_by a b => a.length + b.length
decreasing_by
  all_goals simp only [List.length_cons]
  all_goals omega

theorem levenshtein_nil_left (ys : List ℕ) : levenshtein [] ys = ys.length := by
  simp [levenshtein]

theorem levenshtein_nil_right (xs : List ℕ) : levenshtein xs [] = xs.length := by
  cases xs <;> simp [levenshtein]

theorem levenshtein_cons_cons (x y : ℕ) (xs ys : List ℕ) :
    levenshtein (x :: xs) (y :: ys) =
      min (levenshtein xs (y :: ys) + 1)
        (min (levenshtein (x :: xs) ys + 1)
          (levenshtein xs ys + (if x = y then 0 else 1))) := by
  simp [levenshtein]

theorem osa_nil_left (ys : List ℕ) : osa_distance [] ys = ys.length := by
  simp [osa_distance]

theorem osa_nil_right (xs : List ℕ) : osa_distance xs [] = xs.length := by
  cases xs <;> simp [osa_distance]

/-- The unit substitution cost of the DP never exceeds the detour through a
middle character. -/
theorem delta_triangle (x y z : ℕ) :
    (if x = z then (0 : ℕ) else 1) ≤
      (if x = y then (0 : ℕ) else 1) + (if y = z then (0 : ℕ) else 1) := by
  by_cases hxy : x = y
  · subst hxy
    by_cases hyz : x = z <;> simp [hyz]
  · by_cases hyz : y = z
    · subst hyz
      simp [hxy]
    · split <;> omega

theorem delta_le_one (x y : ℕ) : (if x = y then (0 : ℕ) else 1) ≤ 1 := by
  split <;> omega

theorem delta_symm (x y : ℕ) :
    (if x = y then (0 : ℕ) else 1) = (if y = x then (0 : ℕ) else 1) := by
  by_cases hxy : x = y
  · rw [if_pos hxy, if_pos hxy.symm]
  · rw [if_neg hxy, if_neg (fun h => hxy h.symm)]

theorem levenshtein_symm (a b : List ℕ) : levenshtein a b = levenshtein b a := by
  induction a, b using levenshtein.induct with
  | case1 ys => rw [levenshtein_nil_left, levenshtein_nil_right]
  | case2 x xs => rw [levenshtein_nil_left, levenshtein_nil_right]
  | case3 x xs y ys ih1 ih2 ih3 =>
      rw [levenshtein_cons_cons, levenshtein_cons_cons, ih1, ih2, ih3,
        delta_symm]
      omega

theorem levenshtein_eq_zero_iff (a b : List ℕ) : levenshtein a b = 0 ↔ a = b := by
  induction a, b using levenshtein.induct with
  | case1 ys => simp [levenshtein_nil_left, eq_comm, List.length_eq_zero]
  | case2 x xs => simp [levenshtein_nil_right]
  | case3 x xs y ys ih1 ih2 ih3 =>
      rw [levenshtein_cons_cons]
      by_cases hxy : x = y
      · subst hxy
        simp only [eq_self_iff_true, if_true, List.cons.injEq, true_and]
        rw [← ih3]
        omega
      · simp only [if_neg hxy, List.cons.injEq]
        constructor
        · intro h
          exfalso
          omega
        · rintro ⟨h, -⟩
          exact absurd h hxy

theorem levenshtein_le_max (a b : List ℕ) :
    levenshtein a b ≤ max a.length b.length := by
  induction a, b using levenshtein.induct with
  | case1 ys => rw [levenshtein_nil_left]; omega
  | case2 x xs => rw [levenshtein_nil_right]; simp
  | case3 x xs y ys ih1 ih2 ih3 =>
      rw [levenshtein_cons_cons]
      have hd := delta_le_one x y
      simp only [List.length_cons] at *
      omega

theorem levenshtein_length_bound (a b : List ℕ) :
    b.length ≤ a.length + levenshtein a b ∧ a.length ≤ b.length + levenshtein a b := by
  induction a, b using levenshtein.induct with
  | case1 ys => rw [levenshtein_nil_left]; simp
  | case2 x xs => rw [levenshtein_nil_right]; simp
  | case3 x xs y ys ih1 ih2 ih3 =>
      rw [levenshtein_cons_cons]
      simp only [List.length_cons] at *
      omega

/-- Triangle inequality for the Levenshtein distance, by strong induction on
the combined length of the three sequences. -/
theorem levenshtein_triangle (a b c : List ℕ) :
    levenshtein a c ≤ levenshtein a b + levenshtein b c := by
  suffices h : ∀ n, ∀ a b c : List ℕ, a.length + b.length + c.length ≤ n →
      levenshtein a c ≤ levenshtein a b + levenshtein b c by
    exact h (a.length + b.length + c.length) a b c le_rfl
  intro n
  induction n with
  | zero =>
      intro a b c hlen
      match a, b, c with
      | [], [], [] => simp [levenshtein_nil_left]
      | x :: a', b, c =>
          exfalso
          simp only [List.length_cons, List.length_nil] at hlen
          omega
      | [], y :: b', c =>
          exfalso
          simp only [List.length_cons, List.length_nil] at hlen
          omega
      | [], [], z :: c' =>
          exfalso
          simp only [List.length_cons, List.length_nil] at hlen
          omega
  | succ n ih =>
      intro a b c hlen
      match b with
      | [] =>
          rw [levenshtein_nil_right, levenshtein_nil_left]
          have h1 := levenshtein_le_max a c
          omega
      | y :: b' =>
          match a with
          | [] =>
              rw [levenshtein_nil_left, levenshtein_nil_left]
              have h1 := levenshtein_length_bound (y :: b') c
              omega
          | x :: a' =>
              match c with
              | [] =>
                  rw [levenshtein_nil_right, levenshtein_nil_right]
                  have h1 := levenshtein_length_bound (x :: a') (y :: b')
                  omega
              | z :: c' =>
                  simp only [List.length_cons] at hlen
                  have hac := levenshtein_cons_cons x z a' c'
                  have hab := levenshtein_cons_cons x y a' b'
                  have hbc := levenshtein_cons_cons y z b' c'
                  have i1 := ih a' (y :: b') (z :: c')
                    (by simp only [List.length_cons]; omega)
                  have i2 := ih (x :: a') (y :: b') c'
                    (by simp only [List.length_cons]; omega)
                  have i3 := ih (x :: a') b' (z :: c')
                    (by simp only [List.length_cons]; omega)
                  have i4 := ih (x :: a') b' c'
                    (by simp only [List.length_cons]; omega)
                  have i5 := ih a' b' (z :: c')
                    (by simp only [List.length_cons]; omega)
                  have i6 := ih a' b' c' (by omega)
                  have hd := delta_triangle x y z
                  have d1 := delta_le_one x y
                  have d2 := delta_le_one y z
                  have d3 := delta_le_one x z
                  omega

theorem osa_one_one (x y : ℕ) :
    osa_distance [x] [y] =
      min (osa_distance [] [y] + 1)
        (min (osa_distance [x] [] + 1)
          (osa_distance [] [] + (if x = y then 0 else 1))) := by
  simp [osa_distance]

theorem osa_one_many (x y y2 : ℕ) (ys : List ℕ) :
    osa_distance [x] (y :: y2 :: ys) =
      min (osa_distance [] (y :: y2 :: ys) + 1)
        (min (osa_distance [x] (y2 :: ys) + 1)
          (osa_distance [] (y2 :: ys) + (if x = y then 0 else 1))) := by
  simp [osa_distance]

theorem osa_many_one (x x2 y : ℕ) (xs : List ℕ) :
    osa_distance (x :: x2 :: xs) [y] =
      min (osa_distance (x2 :: xs) [y] + 1)
        (min (osa_distance (x :: x2 :: xs) [] + 1)
          (osa_distance (x2 :: xs) [] + (if x = y then 0 else 1))) := by
  simp [osa_distance]

theorem osa_many_many (x x2 y y2 : ℕ) (xs ys : List ℕ) :
    osa_distance (x :: x2 :: xs) (y :: y2 :: ys) =
      if x = y2 ∧ x2 = y then
        min (osa_distance xs ys + 1)
          (min (osa_distance (x2 :: xs) (y :: y2 :: ys) + 1)
            (min (osa_distance (x :: x2 :: xs) (y2 :: ys) + 1)
              (osa_distance (x2 :: xs) (y2 :: ys) + (if x = y then 0 else 1))))
      else
        min (osa_distance (x2 :: xs) (y :: y2 :: ys) + 1)
          (min (osa_distance (x :: x2 :: xs) (y2 :: ys) + 1)
            (osa_distance (x2 :: xs) (y2 :: ys) + (if x = y then 0 else 1))) := by
  simp [osa_distance]

/-- OSA only adds an option to the Levenshtein recurrence, so it can never
cost more. -/
theorem osa_le_levenshtein (a b : List ℕ) :
    osa_distance a b ≤ levenshtein a b := by
  induction a, b using osa_distance.induct with
  | case1 ys => rw [osa_nil_left, levenshtein_nil_left]
  | case2 x xs => rw [osa_nil_right, levenshtein_nil_right]
  | case3 x y x2 xs' y2 ys' h ih1 ih2 ih3 ih4 =>
      rw [osa_many_many, if_pos h, levenshtein_cons_cons]
      omega
  | case4 x y x2 xs' y2 ys' h ih1 ih2 ih3 =>
      rw [osa_many_many, if_neg h, levenshtein_cons_cons]
      omega
  | case5 x xs y ys hshape ih1 ih2 ih3 =>
      match xs, ys, hshape, ih1, ih2, ih3 with
      | [], [], _, ih1, ih2, ih3 =>
          rw [osa_one_one, levenshtein_cons_cons]
          simp only [osa_nil_left, osa_nil_right, levenshtein_nil_left,
            levenshtein_nil_right]
          omega
      | [], y2 :: ys', _, ih1, ih2, ih3 =>
          rw [osa_one_many, levenshtein_cons_cons]
          omega
      | x2 :: xs', [], _, ih1, ih2, ih3 =>
          rw [osa_many_one, levenshtein_cons_cons]
          omega
      | x2 :: xs', y2 :: ys', hshape, _, _, _ =>
          exact absurd rfl (fun h => hshape x2 xs' y2 ys' h rfl)

theorem osa_symm (a b : List ℕ) : osa_distance a b = osa_distance b a := by
  induction a, b using osa_distance.induct with
  | case1 ys => rw [osa_nil_left, osa_nil_right]
  | case2 x xs => rw [osa_nil_left, osa_nil_right]
  | case3 x y x2 xs' y2 ys' h ih1 ih2 ih3 ih4 =>
      have e1 := osa_many_many x x2 y y2 xs' ys'
      have e2 := osa_many_many y y2 x x2 ys' xs'
      rw [if_pos h] at e1
      rw [if_pos (show y = x2 ∧ y2 = x from ⟨h.2.symm, h.1.symm⟩)] at e2
      rw [e1, e2, ih1, ih2, ih3, ih4, delta_symm x y]
      omega
  | case4 x y x2 xs' y2 ys' h ih1 ih2 ih3 =>
      have e1 := osa_many_many x x2 y y2 xs' ys'
      have e2 := osa_many_many y y2 x x2 ys' xs'
      rw [if_neg h] at e1
      rw [if_neg (show ¬(y = x2 ∧ y2 = x) from
        fun h' => h ⟨h'.2.symm, h'.1.symm⟩)] at e2
      rw [e1, e2, ih1, ih2, ih3, delta_symm x y]
      omega
  | case5 x xs y ys hshape ih1 ih2 ih3 =>
      match xs, ys, hshape, ih1, ih2, ih3 with
      | [], [], _, ih1, ih2, ih3 =>
          rw [osa_one_one x y, osa_one_one y x]
          simp only [osa_nil_left, osa_nil_right, List.length_nil,
            List.length_cons]
          rw [delta_symm x y]
      | [], y2 :: ys', _, ih1, ih2, ih3 =>
          rw [osa_one_many x y y2 ys', osa_many_one y y2 x ys', ih2, ih3]
          simp only [osa_nil_left, osa_nil_right, List.length_nil,
            List.length_cons]
          rw [delta_symm x y]
          omega
      | x2 :: xs', [], _, ih1, ih2, ih3 =>
          rw [osa_many_one x x2 y xs', osa_one_many y x x2 xs', ih1, ih3]
          simp only [osa_nil_left, osa_nil_right, List.length_nil,
            List.length_cons]
          rw [delta_symm x y]
          omega
      | x2 :: xs', y2 :: ys', hshape, _, _, _ =>
          exact absurd rfl (fun h => hshape x2 xs' y2 ys' h rfl)

/-! ### Unrestricted Damerau-Levenshtein distance

Modelled from the spec: `strsim::damerau_levenshtein` is absent from
`src/`.  Spec 4.4 describes it as "like OSA but substrings may be edited
an unlimited number of times": the distance is the least number of
single-character edit operations (insertion, deletion, substitution,
adjacent transposition), applied anywhere and in any order, that turn one
sequence into the other.  `Step` is one unit-cost operation, `Reach n a b`
says an `n`-operation script turns `a` into `b`, and the distance is the
least such `n` (made computable by a palette-restricted search below). -/

/-- One unit-cost edit operation: insert, delete or substitute a character
or transpose two adjacent characters, at any position (positions are
reached through the `cons` congruence constructor). -/
inductive Step : List ℕ → List ℕ → Prop
  | ins (c : ℕ) (xs : List ℕ) : Step xs (c :: xs)
  | del (c : ℕ) (xs : List ℕ) : Step (c :: xs) xs
  | sub (c c' : ℕ) (xs : List ℕ) : Step (c :: xs) (c' :: xs)
  | transpose (c d : ℕ) (xs : List ℕ) : Step (c :: d :: xs) (d :: c :: xs)
  | cons (c : ℕ) {xs ys : List ℕ} : Step xs ys → Step (c :: xs) (c :: ys)

/-- `Reach n a b`: some script of exactly `n` edit operations turns `a`
into `b`. -/
inductive Reach : ℕ → List ℕ → List ℕ → Prop
  | refl (xs : List ℕ) : Reach 0 xs xs
  | head {n : ℕ} {xs ys zs : List ℕ} :
      Step xs ys → Reach n ys zs → Reach (n + 1) xs zs

theorem Reach.trans {m n : ℕ} {a b c : List ℕ}
    (h1 : Reach m a b) (h2 : Reach n b c) : Reach (m + n) a c := by
  induction h1 with
  | refl => simpa using h2
  | head hs _ ih =>
      have h3 := Reach.head hs (ih h2)
      rwa [Nat.add_right_comm] at h3

theorem Reach.snoc {n : ℕ} {a b c : List ℕ}
    (h1 : Reach n a b) (h2 : Step b c) : Reach (n + 1) a c :=
  h1.trans (Reach.head h2 (Reach.refl c))

theorem step_rev {a b : List ℕ} (h : Step a b) : Step b a := by
  induction h with
  | ins c xs => exact Step.del c xs
  | del c xs => exact Step.ins c xs
  | sub c c' xs => exact Step.sub c' c xs
  | transpose c d xs => exact Step.transpose d c xs
  | cons c _ ih => exact Step.cons c ih

theorem reach_rev {n : ℕ} {a b : List ℕ} (h : Reach n a b) : Reach n b a := by
  induction h with
  | refl xs => exact Reach.refl xs
  | head hs _ ih => exact ih.snoc (step_rev hs)

theorem Reach.cons_lift {n : ℕ} (c : ℕ) {a b : List ℕ}
    (h : Reach n a b) : Reach n (c :: a) (c :: b) := by
  induction h with
  | refl xs => exact Reach.refl _
  | head hs _ ih => exact Reach.head (Step.cons c hs) ih

theorem reach_insert_all (b : List ℕ) : Reach b.length [] b := by
  induction b with
  | nil => exact Reach.refl []
  | cons y b' ih => exact ih.snoc (Step.ins y b')

theorem reach_delete_all (a : List ℕ) : Reach a.length a [] :=
  reach_rev (reach_insert_all a)

theorem exists_reach_le_max (a b : List ℕ) :
    ∃ n, n ≤ max a.length b.length ∧ Reach n a b := by
  induction a generalizing b with
  | nil => exact ⟨b.length, by simp, reach_insert_all b⟩
  | cons x a' ih =>
      match b with
      | [] =>
          exact ⟨(x :: a').length, by simp, reach_delete_all (x :: a')⟩
      | y :: b' =>
          obtain ⟨n, hn, hr⟩ := ih b'
          by_cases hxy : x = y
          · subst hxy
            refine ⟨n, ?_, hr.cons_lift x⟩
            simp only [List.length_cons]
            omega
          · refine ⟨n + 1, ?_, Reach.head (Step.sub x y a') (hr.cons_lift y)⟩
            simp only [List.length_cons]
            omega

theorem exists_reach (a b : List ℕ) : ∃ n, Reach n a b := by
  obtain ⟨n, -, hr⟩ := exists_reach_le_max a b
  exact ⟨n, hr⟩

/-- The single adjacent-transposition successor of a sequence at its head,
when it exists. -/
def transposes : List ℕ → List (List ℕ)
  | x :: y :: t => [y :: x :: t]
  | _ => []

theorem transposes_sound {s t : List ℕ} (h : t ∈ transposes s) : Step s t := by
  match s, h with
  | x :: y :: t', h =>
      simp only [transposes, List.mem_singleton] at h
      subst h
      exact Step.transpose x y t'
  | [], h => simp [transposes] at h
  | [x], h => simp [transposes] at h

/-- All one-step successors of a sequence whose inserted or substituted
characters are drawn from the palette `P`. -/
def succs (P : List ℕ) : List ℕ → List (List ℕ)
  | [] => P.map (fun c => [c])
  | x :: xs =>
      P.map (fun c => c :: x :: xs) ++
        xs ::
          (P.map (fun c => c :: xs) ++
            (transposes (x :: xs) ++ (succs P xs).map (fun s => x :: s)))

theorem succs_sound (P : List ℕ) :
    ∀ s t : List ℕ, t ∈ succs P s → Step s t := by
  intro s
  induction s with
  | nil =>
      intro t ht
      simp only [succs, List.mem_map] at ht
      obtain ⟨c, -, rfl⟩ := ht
      exact Step.ins c []
  | cons x xs ih =>
      intro t ht
      rw [succs] at ht
      simp only [List.mem_append, List.mem_cons, List.mem_map] at ht
      rcases ht with ⟨c, -, rfl⟩ | h2 | ⟨c, -, rfl⟩ | h | ⟨s', hs', rfl⟩
      · exact Step.ins c (x :: xs)
      · rw [h2]
        exact Step.del x xs
      · exact Step.sub x c xs
      · exact transposes_sound h
      · exact Step.cons x (ih s' hs')

theorem succs_complete (P : List ℕ) {s t : List ℕ} (h : Step s t)
    (hP : ∀ c ∈ t, c ∈ P) : t ∈ succs P s := by
  induction h with
  | ins c xs =>
      have hc : c ∈ P := hP c (List.mem_cons_self c xs)
      match xs with
      | [] =>
          simp only [succs, List.mem_map]
          exact ⟨c, hc, rfl⟩
      | x :: xs' =>
          rw [succs]
          simp only [List.mem_append, List.mem_cons, List.mem_map]
          exact Or.inl ⟨c, hc, rfl⟩
  | del c xs =>
      rw [succs]
      simp only [List.mem_append, List.mem_cons, List.mem_map]
      exact Or.inr (Or.inl trivial)
  | sub c c' xs =>
      have hc : c' ∈ P := hP c' (List.mem_cons_self c' xs)
      rw [succs]
      simp only [List.mem_append, List.mem_cons, List.mem_map]
      exact Or.inr (Or.inr (Or.inl ⟨c', hc, rfl⟩))
  | transpose c d xs =>
      rw [succs]
      simp only [List.mem_append, List.mem_cons, List.mem_map]
      refine Or.inr (Or.inr (Or.inr (Or.inl ?_)))
      simp [transposes]
  | @cons c xs ys hstep ih =>
      have hys : ys ∈ succs P xs :=
        ih (fun e he => hP e (List.mem_cons_of_mem c he))
      rw [succs]
      simp only [List.mem_append, List.mem_cons, List.mem_map]
      exact Or.inr (Or.inr (Or.inr (Or.inr ⟨ys, hys, rfl⟩)))

/-- Bounded reachability search over palette `P`. -/
def ReachB (P : List ℕ) : ℕ → List ℕ → List ℕ → Bool
  | 0, a, b => a == b
  | n + 1, a, b => (succs P a).any (fun a' => ReachB P n a' b)

theorem reachB_sound (P : List ℕ) :
    ∀ (n : ℕ) (a b : List ℕ), ReachB P n a b = true → Reach n a b := by
  intro n
  induction n with
  | zero =>
      intro a b h
      simp only [ReachB, beq_iff_eq] at h
      subst h
      exact Reach.refl a
  | succ n ih =>
      intro a b h
      simp only [ReachB, List.any_eq_true] at h
      obtain ⟨a', ha', h'⟩ := h
      exact Reach.head (succs_sound P a a' ha') (ih a' b h')

theorem step_map (f : ℕ → ℕ) {s t : List ℕ} (h : Step s t) :
    Step (s.map f) (t.map f) := by
  induction h with
  | ins c xs => exact Step.ins (f c) (xs.map f)
  | del c xs => exact Step.del (f c) (xs.map f)
  | sub c c' xs => exact Step.sub (f c) (f c') (xs.map f)
  | transpose c d xs => exact Step.transpose (f c) (f d) (xs.map f)
  | cons c _ ih => exact Step.cons (f c) ih

theorem reach_reachB_map (P : List ℕ) (f : ℕ → ℕ) (hf : ∀ c, f c ∈ P)
    {n : ℕ} {s t : List ℕ} (h : Reach n s t) :
    ReachB P n (s.map f) (t.map f) = true := by
  induction h with
  | refl xs => simp [ReachB]
  | @head n xs ys zs hs hr ih =>
      simp only [ReachB, List.any_eq_true]
      refine ⟨ys.map f, succs_complete P (step_map f hs) ?_, ih⟩
      intro e he
      simp only [List.mem_map] at he
      obtain ⟨c, -, rfl⟩ := he
      exact hf c

/-- The palette for a concrete search: all characters of both endpoints
plus one fresh character that every other character can be renamed to. -/
def palette (a b : List ℕ) : List ℕ := ((a ++ b).foldr max 0 + 1) :: (a ++ b)

/-- Renaming into the palette: characters of the endpoints are kept, every
other character becomes the fresh one.  Edit operations never test
character equality, so renaming preserves scripts. -/
def phi (a b : List ℕ) (c : ℕ) : ℕ :=
  if c ∈ a ++ b then c else (a ++ b).foldr max 0 + 1

theorem phi_mem_palette (a b : List ℕ) (c : ℕ) : phi a b c ∈ palette a b := by
  unfold phi palette
  split
  · exact List.mem_cons_of_mem _ (by assumption)
  · exact List.mem_cons_self _ _

theorem map_phi_of_subset {a b l : List ℕ} (hl : ∀ x ∈ l, x ∈ a ++ b) :
    l.map (phi a b) = l := by
  induction l with
  | nil => rfl
  | cons x l' ih =>
      simp only [List.map_cons]
      rw [ih (fun e he => hl e (List.mem_cons_of_mem x he))]
      unfold phi
      rw [if_pos (hl x (List.mem_cons_self x l'))]

instance decidableReach (n : ℕ) (a b : List ℕ) : Decidable (Reach n a b) :=
  decidable_of_iff (ReachB (palette a b) n a b = true)
    ⟨reachB_sound _ n a b, fun h => by
      have h2 := reach_reachB_map (palette a b) (phi a b)
        (phi_mem_palette a b) h
      rwa [map_phi_of_subset (fun x hx => List.mem_append_left b hx),
        map_phi_of_subset (fun x hx => List.mem_append_right a hx)] at h2⟩

/-- Modelled from the spec: `strsim::damerau_levenshtein` is absent from
`src/`.  The unrestricted Damerau-Levenshtein distance: the least number
of insertions, deletions, substitutions and adjacent transpositions
turning `a` into `b` (spec 4.4). -/
def damerau_levenshtein (a b : List ℕ) : ℕ := Nat.find (exists_reach a b)

theorem reach_damerau (a b : List ℕ) :
    Reach (damerau_levenshtein a b) a b :=
  Nat.find_spec (exists_reach a b)

theorem damerau_le_of_reach {n : ℕ} {a b : List ℕ} (h : Reach n a b) :
    damerau_levenshtein a b ≤ n :=
  Nat.find_min' (exists_reach a b) h

theorem damerau_triangle (a b c : List ℕ) :
    damerau_levenshtein a c ≤
      damerau_levenshtein a b + damerau_levenshtein b c :=
  damerau_le_of_reach ((reach_damerau a b).trans (reach_damerau b c))

theorem damerau_symm (a b : List ℕ) :
    damerau_levenshtein a b = damerau_levenshtein b a :=
  le_antisymm (damerau_le_of_reach (reach_rev (reach_damerau b a)))
    (damerau_le_of_reach (reach_rev (reach_damerau a b)))

theorem reach_zero_eq {a b : List ℕ} (h : Reach 0 a b) : a = b := by
  cases h
  rfl

theorem damerau_eq_zero_iff (a b : List ℕ) :
    damerau_levenshtein a b = 0 ↔ a = b := by
  rw [damerau_levenshtein, Nat.find_eq_zero]
  exact ⟨reach_zero_eq, fun h => h ▸ Reach.refl a⟩

theorem damerau_le_max (a b : List ℕ) :
    damerau_levenshtein a b ≤ max a.length b.length := by
  obtain ⟨n, hn, hr⟩ := exists_reach_le_max a b
  exact le_trans (damerau_le_of_reach hr) hn

theorem min3_choice (a b c : ℕ) :
    min a (min b c) = a ∨ min a (min b c) = b ∨ min a (min b c) = c := by
  omega

theorem min4_choice (t a b c : ℕ) :
    min t (min a (min b c)) = t ∨ min t (min a (min b c)) = a ∨
      min t (min a (min b c)) = b ∨ min t (min a (min b c)) = c := by
  omega

/-- Every value the OSA recurrence computes is realized by an actual edit
script, so the unrestricted distance never exceeds it. -/
theorem reach_osa (a b : List ℕ) : Reach (osa_distance a b) a b := by
  induction a, b using osa_distance.induct with
  | case1 ys =>
      rw [osa_nil_left]
      exact reach_insert_all ys
  | case2 x xs =>
      rw [osa_nil_right]
      exact reach_delete_all (x :: xs)
  | case3 x y x2 xs' y2 ys' h ih1 ih2 ih3 ih4 =>
      have e1 := osa_many_many x x2 y y2 xs' ys'
      rw [if_pos h] at e1
      rw [e1]
      rcases min4_choice (osa_distance xs' ys' + 1)
          (osa_distance (x2 :: xs') (y :: y2 :: ys') + 1)
          (osa_distance (x :: x2 :: xs') (y2 :: ys') + 1)
          (osa_distance (x2 :: xs') (y2 :: ys') + (if x = y then 0 else 1))
        with hm | hm | hm | hm <;> rw [hm]
      · refine Reach.head (Step.transpose x x2 xs') ?_
        rw [h.2, h.1]
        exact (ih4.cons_lift y2).cons_lift y
      · exact Reach.head (Step.del x (x2 :: xs')) ih1
      · exact ih2.snoc (Step.ins y (y2 :: ys'))
      · by_cases hq : x = y
        · rw [if_pos hq, Nat.add_zero, hq]
          exact ih3.cons_lift y
        · rw [if_neg hq]
          exact Reach.head (Step.sub x y (x2 :: xs')) (ih3.cons_lift y)
  | case4 x y x2 xs' y2 ys' h ih1 ih2 ih3 =>
      have e1 := osa_many_many x x2 y y2 xs' ys'
      rw [if_neg h] at e1
      rw [e1]
      rcases min3_choice (osa_distance (x2 :: xs') (y :: y2 :: ys') + 1)
          (osa_distance (x :: x2 :: xs') (y2 :: ys') + 1)
          (osa_distance (x2 :: xs') (y2 :: ys') + (if x = y then 0 else 1))
        with hm | hm | hm <;> rw [hm]
      · exact Reach.head (Step.del x (x2 :: xs')) ih1
      · exact ih2.snoc (Step.ins y (y2 :: ys'))
      · by_cases hq : x = y
        · rw [if_pos hq, Nat.add_zero, hq]
          exact ih3.cons_lift y
        · rw [if_neg hq]
          exact Reach.head (Step.sub x y (x2 :: xs')) (ih3.cons_lift y)
  | case5 x xs y ys hshape ih1 ih2 ih3 =>
      match xs, ys, hshape, ih1, ih2, ih3 with
      | [], [], _, ih1, ih2, ih3 =>
          rw [osa_one_one]
          rcases min3_choice (osa_distance [] [y] + 1) (osa_distance [x] [] + 1)
              (osa_distance [] [] + (if x = y then 0 else 1))
            with hm | hm | hm <;> rw [hm]
          · exact Reach.head (Step.del x []) ih1
          · exact ih2.snoc (Step.ins y [])
          · by_cases hq : x = y
            · rw [if_pos hq, Nat.add_zero, hq]
              exact ih3.cons_lift y
            · rw [if_neg hq]
              exact Reach.head (Step.sub x y []) (ih3.cons_lift y)
      | [], y2 :: ys', _, ih1, ih2, ih3 =>
          rw [osa_one_many]
          rcases min3_choice (osa_distance [] (y :: y2 :: ys') + 1)
              (osa_distance [x] (y2 :: ys') + 1)
              (osa_distance [] (y2 :: ys') + (if x = y then 0 else 1))
            with hm | hm | hm <;> rw [hm]
          · exact Reach.head (Step.del x []) ih1
          · exact ih2.snoc (Step.ins y (y2 :: ys'))
          · by_cases hq : x = y
            · rw [if_pos hq, Nat.add_zero, hq]
              exact ih3.cons_lift y
            · rw [if_neg hq]
              exact Reach.head (Step.sub x y []) (ih3.cons_lift y)
      | x2 :: xs', [], _, ih1, ih2, ih3 =>
          rw [osa_many_one]
          rcases min3_choice (osa_distance (x2 :: xs') [y] + 1)
              (osa_distance (x :: x2 :: xs') [] + 1)
              (osa_distance (x2 :: xs') [] + (if x = y then 0 else 1))
            with hm | hm | hm <;> rw [hm]
          · exact Reach.head (Step.del x (x2 :: xs')) ih1
          · exact ih2.snoc (Step.ins y [])
          · by_cases hq : x = y
            · rw [if_pos hq, Nat.add_zero, hq]
              exact ih3.cons_lift y
            · rw [if_neg hq]
              exact Reach.head (Step.sub x y (x2 :: xs')) (ih3.cons_lift y)
      | x2 :: xs', y2 :: ys', hshape, _, _, _ =>
          exact absurd rfl (fun hh => hshape x2 xs' y2 ys' hh rfl)

/-- The unrestricted distance never exceeds the OSA distance. -/
theorem damerau_le_osa (a b : List ℕ) :
    damerau_levenshtein a b ≤ osa_distance a b :=
  damerau_le_of_reach (reach_osa a b)

/-- `damerau_levenshtein "ca" "abc" = 2` (codepoints 99 97 / 97 98 99):
transpose to `"ac"`, then insert `'b'`. -/
theorem damerau_ca_abc : damerau_levenshtein [99, 97] [97, 98, 99] = 2 := by
  apply le_antisymm
  · exact damerau_le_of_reach
      (Reach.head (Step.transpose 99 97 [])
        (Reach.head (Step.cons 97 (Step.ins 98 [99])) (Reach.refl _)))
  · rw [damerau_levenshtein, Nat.le_find_iff]
    intro m hm
    interval_cases m
    · decide
    · decide

theorem osa_ca_abc : osa_distance [99, 97] [97, 98, 99] = 3 := by
  simp [osa_distance]

/-! ### Normalized metrics and Sørensen-Dice -/

/-- Modelled from the spec: `strsim::normalized_levenshtein` is absent
from `src/`.  Similarity `1 - distance / max(len a, len b)`; when both
sequences are empty the similarity is `1` (spec 4.5). -/
def normalized_levenshtein (a b : List ℕ) : ℚ :=
  if a.length = 0 ∧ b.length = 0 then 1
  else 1 - (levenshtein a b : ℚ) / (max a.length b.length : ℚ)

/-- Modelled from the spec: `strsim::normalized_damerau_levenshtein` is
absent from `src/`.  Similarity `1 - distance / max(len a, len b)`; when
both sequences are empty the similarity is `1` (spec 4.5). -/
def normalized_damerau_levenshtein (a b : List ℕ) : ℚ :=
  if a.length = 0 ∧ b.length = 0 then 1
  else 1 - (damerau_levenshtein a b : ℚ) / (max a.length b.length : ℚ)

/-- The multiset of adjacent-character bigrams of a sequence (spec 4.8). -/
def bigrams (l : List ℕ) : List (ℕ × ℕ) := l.zip l.tail

/-- Modelled from the spec: `strsim::sorensen_dice` is absent from
`src/`.  Bigram Sørensen-Dice similarity: twice the number of common
bigrams (counted with multiplicity up to the minimum) over the total
bigram count; if the denominator is zero the result is `1` for equal
inputs and `0` otherwise (spec 4.8). -/
def sorensen_dice (a b : List ℕ) : ℚ :=
  if (bigrams a).length + (bigrams b).length = 0 then
    if a = b then 1 else 0
  else
    2 * ((Multiset.ofList (bigrams a) ∩ Multiset.ofList (bigrams b)).card : ℚ) /
      (((bigrams a).length + (bigrams b).length : ℕ) : ℚ)

/-- A shared generic range/iff helper for the two normalized metrics: any
distance that is zero exactly on equal inputs and bounded by the longer
length normalizes into `[0, 1]` with value `1` exactly on equal inputs. -/
theorem normalized_props (d : List ℕ → List ℕ → ℕ)
    (hzero : ∀ a b, d a b = 0 ↔ a = b)
    (hmax : ∀ a b, d a b ≤ max a.length b.length) (a b : List ℕ) :
    (0 ≤ (if a.length = 0 ∧ b.length = 0 then (1 : ℚ)
        else 1 - (d a b : ℚ) / (max a.length b.length : ℚ))) ∧
      ((if a.length = 0 ∧ b.length = 0 then (1 : ℚ)
        else 1 - (d a b : ℚ) / (max a.length b.length : ℚ)) ≤ 1) ∧
      ((if a.length = 0 ∧ b.length = 0 then (1 : ℚ)
        else 1 - (d a b : ℚ) / (max a.length b.length : ℚ)) = 1 ↔ a = b) := by
  by_cases hempty : a.length = 0 ∧ b.length = 0
  · rw [if_pos hempty]
    refine ⟨by norm_num, le_refl 1, ?_⟩
    simp only [eq_self_iff_true, true_iff]
    rw [List.length_eq_zero.mp hempty.1, List.length_eq_zero.mp hempty.2]
  · rw [if_neg hempty]
    have hmaxpos : 0 < max a.length b.length := by omega
    have hmaxposQ : (0 : ℚ) < (max a.length b.length : ℚ) := by
      exact_mod_cast hmaxpos
    have hdle : (d a b : ℚ) ≤ (max a.length b.length : ℚ) := by
      exact_mod_cast hmax a b
    have hdnonneg : (0 : ℚ) ≤ (d a b : ℚ) := by positivity
    have hdiv_le_one : (d a b : ℚ) / (max a.length b.length : ℚ) ≤ 1 :=
      (div_le_one hmaxposQ).mpr hdle
    have hdiv_nonneg : (0 : ℚ) ≤ (d a b : ℚ) / (max a.length b.length : ℚ) :=
      div_nonneg hdnonneg hmaxposQ.le
    refine ⟨by linarith, by linarith, ?_⟩
    constructor
    · intro h1
      have hdiv0 : (d a b : ℚ) / (max a.length b.length : ℚ) = 0 := by
        linarith
      have hd0 : (d a b : ℚ) = 0 := by
        field_simp at hdiv0
        exact_mod_cast hdiv0
      exact (hzero a b).mp (by exact_mod_cast hd0)
    · intro h1
      have hd0 : d a b = 0 := (hzero a b).mpr h1
      rw [hd0]
      norm_num

/-! ### Jaro and Jaro-Winkler

Modelled from the spec: `strsim::jaro` and `strsim::jaro_winkler` are
absent from `src/`.  Spec 4.6: characters match greedily within the
window `max(len a, len b) / 2 - 1`; each left character takes the first
unconsumed right character that is equal and within the window.  `t` is
half the number of positions at which the two matched-character sequences
(one in left order, one in right order) differ. -/

/-- Greedy matching: process the left indices in order; each takes the
first unconsumed right index accepted by the eligibility test `E`. -/
def gmatch (E : ℕ → ℕ → Bool) : List ℕ → List ℕ → List (ℕ × ℕ)
  | [], _ => []
  | i :: il, js =>
      match js.find? (fun j => E i j) with
      | some j => (i, j) :: gmatch E il (js.erase j)
      | none => gmatch E il js

theorem gmatch_cons_some (E : ℕ → ℕ → Bool) {i j : ℕ} (il : List ℕ)
    {js : List ℕ} (h : js.find? (fun j' => E i j') = some j) :
    gmatch E (i :: il) js = (i, j) :: gmatch E il (js.erase j) := by
  rw [gmatch, h]

theorem gmatch_cons_none (E : ℕ → ℕ → Bool) {i : ℕ} (il : List ℕ)
    {js : List ℕ} (h : js.find? (fun j' => E i j') = none) :
    gmatch E (i :: il) js = gmatch E il js := by
  rw [gmatch, h]

theorem gmatch_nil_pool (E : ℕ → ℕ → Bool) :
    ∀ il : List ℕ, gmatch E il [] = [] := by
  intro il
  induction il with
  | nil => rfl
  | cons i il ih => rw [@gmatch_cons_none E i il [] rfl, ih]

theorem bool_false_of_not_true {b : Bool} (h : ¬b = true) : b = false := by
  cases b
  · rfl
  · exact absurd rfl h

/-- A left element that no pool element accepts can be removed without
changing the greedy matching. -/
theorem gmatch_skip (E : ℕ → ℕ → Bool) (i0 : ℕ) :
    ∀ (js rest : List ℕ), (∀ j ∈ js, E j i0 = false) →
      gmatch E js (i0 :: rest) = gmatch E js rest := by
  intro js
  induction js with
  | nil => intro rest h; rfl
  | cons j jt ih =>
      intro rest h
      have hj : E j i0 = false := h j (List.mem_cons_self j jt)
      have hfindeq : (i0 :: rest).find? (fun i => E j i) =
          rest.find? (fun i => E j i) :=
        List.find?_cons_of_neg rest (by simp [hj])
      cases hfind : rest.find? (fun i => E j i) with
      | some i1 =>
          have hi1 : E j i1 = true := List.find?_some hfind
          have hne : i1 ≠ i0 := fun he => by rw [he, hj] at hi1; cases hi1
          rw [gmatch_cons_some E jt (hfindeq.trans hfind),
            gmatch_cons_some E jt hfind,
            List.erase_cons_tail (not_beq_of_ne hne.symm),
            ih (rest.erase i1)
              (fun j' hj' => h j' (List.mem_cons_of_mem j hj'))]
      | none =>
          rw [gmatch_cons_none E jt (hfindeq.trans hfind),
            gmatch_cons_none E jt hfind]
          exact ih rest (fun j' hj' => h j' (List.mem_cons_of_mem j hj'))

/-- The commuting step of the duality: if the head left index `i0` greedily
takes `j0` from the pool, the dual run splits around the pair `(j0, i0)`. -/
theorem gmatch_insert (E : ℕ → ℕ → Bool) (i0 j0 : ℕ) :
    ∀ (js rest : List ℕ), js.find? (fun j => E i0 j) = some j0 →
      ∃ L1 L2,
        gmatch (fun j i => E i j) js (i0 :: rest) = L1 ++ (j0, i0) :: L2 ∧
          gmatch (fun j i => E i j) (js.erase j0) rest = L1 ++ L2 := by
  intro js
  induction js with
  | nil => intro rest h; cases h
  | cons j1 jt ih =>
      intro rest h
      by_cases hE : E i0 j1 = true
      · rw [List.find?_cons_of_pos _ hE] at h
        have hj : j1 = j0 := by injection h
        subst hj
        refine ⟨[], gmatch (fun j i => E i j) jt rest, ?_, ?_⟩
        · rw [gmatch_cons_some (fun j i => E i j) jt
              (List.find?_cons_of_pos rest hE), List.erase_cons_head]
          simp
        · rw [List.erase_cons_head]
          simp
      · have hEf : E i0 j1 = false := bool_false_of_not_true hE
        rw [List.find?_cons_of_neg _ hE] at h
        have hj0 : E i0 j0 = true := List.find?_some h
        have hne : j1 ≠ j0 := fun he => by rw [he, hj0] at hEf; cases hEf
        rw [List.erase_cons_tail (not_beq_of_ne hne)]
        have hfindeq : (i0 :: rest).find? (fun i => E i j1) =
            rest.find? (fun i => E i j1) :=
          List.find?_cons_of_neg rest (by simp [hEf])
        cases hfind : rest.find? (fun i => E i j1) with
        | some i1 =>
            have hi1 : E i1 j1 = true := by simpa using List.find?_some hfind
            have hi1ne : i1 ≠ i0 := fun he => by rw [he, hEf] at hi1; cases hi1
            obtain ⟨L1, L2, h1, h2⟩ := ih (rest.erase i1) h
            refine ⟨(j1, i1) :: L1, L2, ?_, ?_⟩
            · rw [gmatch_cons_some (fun j i => E i j) jt
                  (hfindeq.trans hfind),
                List.erase_cons_tail (not_beq_of_ne hi1ne.symm), h1]
              simp
            · rw [gmatch_cons_some (fun j i => E i j) (jt.erase j0) hfind, h2]
              simp
        | none =>
            obtain ⟨L1, L2, h1, h2⟩ := ih rest h
            refine ⟨L1, L2, ?_, ?_⟩
            · rw [gmatch_cons_none (fun j i => E i j) jt
                  (hfindeq.trans hfind), h1]
            · rw [gmatch_cons_none (fun j i => E i j) (jt.erase j0) hfind, h2]

/-- Greedy matching is self-dual: running it from the right side produces
a permutation of the swapped pairs of the left-side run. -/
theorem gmatch_dual (E : ℕ → ℕ → Bool) :
    ∀ il js : List ℕ,
      (gmatch (fun j i => E i j) js il).Perm
        ((gmatch E il js).map Prod.swap) := by
  intro il
  induction il with
  | nil =>
      intro js
      rw [gmatch_nil_pool]
      simp [gmatch]
  | cons i0 il ih =>
      intro js
      cases hfind : js.find? (fun j => E i0 j) with
      | none =>
          rw [gmatch_cons_none E il hfind]
          have hskip : ∀ j ∈ js, E i0 j = false := by
            intro j hj
            exact bool_false_of_not_true (List.find?_eq_none.mp hfind j hj)
          rw [gmatch_skip (fun j i => E i j) i0 js il hskip]
          exact ih js
      | some j0 =>
          rw [gmatch_cons_some E il hfind]
          obtain ⟨L1, L2, h1, h2⟩ := gmatch_insert E i0 j0 js il hfind
          rw [h1]
          refine (List.perm_middle).trans ?_
          simp only [List.map_cons, Prod.swap_prod_mk]
          refine List.Perm.cons (j0, i0) ?_
          rw [← h2]
          exact ih (js.erase j0)

theorem gmatch_fst_sublist (E : ℕ → ℕ → Bool) :
    ∀ il js : List ℕ, ((gmatch E il js).map Prod.fst).Sublist il := by
  intro il
  induction il with
  | nil => intro js; simp [gmatch]
  | cons i il ih =>
      intro js
      cases hfind : js.find? (fun j => E i j) with
      | some j =>
          rw [gmatch_cons_some E il hfind]
          simp only [List.map_cons]
          exact (ih (js.erase j)).cons₂ i
      | none =>
          rw [gmatch_cons_none E il hfind]
          exact (ih js).cons i

theorem gmatch_length_le_pool (E : ℕ → ℕ → Bool) :
    ∀ il js : List ℕ, (gmatch E il js).length ≤ js.length := by
  intro il
  induction il with
  | nil => intro js; simp [gmatch]
  | cons i il ih =>
      intro js
      cases hfind : js.find? (fun j => E i j) with
      | some j =>
          rw [gmatch_cons_some E il hfind]
          have hmem : j ∈ js := List.mem_of_find?_eq_some hfind
          have hlen := List.length_erase_of_mem hmem
          have hpos : 1 ≤ js.length := List.length_pos.mpr
            (fun he => by rw [he] at hmem; cases hmem)
          have := ih (js.erase j)
          simp only [List.length_cons]
          omega
      | none =>
          rw [gmatch_cons_none E il hfind]
          exact ih js

theorem gmatch_snd_mem (E : ℕ → ℕ → Bool) :
    ∀ (il js : List ℕ) (p : ℕ × ℕ), p ∈ gmatch E il js → p.2 ∈ js := by
  intro il
  induction il with
  | nil => intro js p hp; simp [gmatch] at hp
  | cons i il ih =>
      intro js p hp
      cases hfind : js.find? (fun j => E i j) with
      | some j =>
          rw [gmatch_cons_some E il hfind] at hp
          rcases List.mem_cons.mp hp with rfl | hp'
          · exact List.mem_of_find?_eq_some hfind
          · exact List.erase_subset _ _ (ih (js.erase j) p hp')
      | none =>
          rw [gmatch_cons_none E il hfind] at hp
          exact ih js p hp

theorem gmatch_snd_nodup (E : ℕ → ℕ → Bool) :
    ∀ il js : List ℕ, js.Nodup → ((gmatch E il js).map Prod.snd).Nodup := by
  intro il
  induction il with
  | nil => intro js h; simp [gmatch]
  | cons i il ih =>
      intro js h
      cases hfind : js.find? (fun j => E i j) with
      | some j =>
          rw [gmatch_cons_some E il hfind]
          simp only [List.map_cons, List.nodup_cons]
          refine ⟨?_, ih (js.erase j) (h.erase j)⟩
          intro hmem
          simp only [List.mem_map] at hmem
          obtain ⟨p, hp, hpj⟩ := hmem
          have := gmatch_snd_mem E il (js.erase j) p hp
          rw [hpj] at this
          exact h.not_mem_erase this
      | none =>
          rw [gmatch_cons_none E il hfind]
          exact ih js h

/-! Insertion sort of index pairs by a numeric key; used to read the
matched characters in right-string order when counting transpositions. -/

def insertByKey (key : ℕ × ℕ → ℕ) (p : ℕ × ℕ) :
    List (ℕ × ℕ) → List (ℕ × ℕ)
  | [] => [p]
  | q :: qs => if key p ≤ key q then p :: q :: qs else q :: insertByKey key p qs

def sortByKey (key : ℕ × ℕ → ℕ) : List (ℕ × ℕ) → List (ℕ × ℕ)
  | [] => []
  | p :: ps => insertByKey key p (sortByKey key ps)

theorem insertByKey_perm (key : ℕ × ℕ → ℕ) (p : ℕ × ℕ) :
    ∀ l : List (ℕ × ℕ), (insertByKey key p l).Perm (p :: l) := by
  intro l
  induction l with
  | nil => simp [insertByKey]
  | cons q qs ih =>
      rw [insertByKey]
      split
      · exact List.Perm.refl _
      · exact (ih.cons q).trans (List.Perm.swap p q qs)

theorem sortByKey_perm (key : ℕ × ℕ → ℕ) :
    ∀ l : List (ℕ × ℕ), (sortByKey key l).Perm l := by
  intro l
  induction l with
  | nil => exact List.Perm.refl _
  | cons p ps ih =>
      rw [sortByKey]
      exact (insertByKey_perm key p (sortByKey key ps)).trans (ih.cons p)

theorem insertByKey_pairwise (key : ℕ × ℕ → ℕ) (p : ℕ × ℕ) :
    ∀ l : List (ℕ × ℕ), l.Pairwise (fun u v => key u ≤ key v) →
      (insertByKey key p l).Pairwise (fun u v => key u ≤ key v) := by
  intro l
  induction l with
  | nil => intro h; simp [insertByKey]
  | cons q qs ih =>
      intro h
      rw [insertByKey]
      rcases List.pairwise_cons.mp h with ⟨hq, hqs⟩
      split
      · rename_i hle
        refine List.pairwise_cons.mpr ⟨?_, h⟩
        intro v hv
        rcases List.mem_cons.mp hv with rfl | hv'
        · exact hle
        · exact le_trans hle (hq v hv')
      · rename_i hgt
        refine List.pairwise_cons.mpr ⟨?_, ih hqs⟩
        intro v hv
        have hv2 := (insertByKey_perm key p qs).mem_iff.mp hv
        rcases List.mem_cons.mp hv2 with rfl | hv'
        · omega
        · exact hq v hv'

theorem sortByKey_pairwise (key : ℕ × ℕ → ℕ) :
    ∀ l : List (ℕ × ℕ),
      (sortByKey key l).Pairwise (fun u v => key u ≤ key v) := by
  intro l
  induction l with
  | nil => simp [sortByKey]
  | cons p ps ih => exact insertByKey_pairwise key p (sortByKey key ps) ih

theorem pairwise_lt_of_le_nodup (key : ℕ × ℕ → ℕ) :
    ∀ l : List (ℕ × ℕ), l.Pairwise (fun u v => key u ≤ key v) →
      (l.map key).Nodup → l.Pairwise (fun u v => key u < key v) := by
  intro l
  induction l with
  | nil => intro h1 h2; exact List.Pairwise.nil
  | cons p ps ih =>
      intro h1 h2
      rcases List.pairwise_cons.mp h1 with ⟨hp, hps⟩
      simp only [List.map_cons, List.nodup_cons] at h2
      refine List.pairwise_cons.mpr ⟨?_, ih hps h2.2⟩
      intro v hv
      refine lt_of_le_of_ne (hp v hv) ?_
      intro he
      exact h2.1 (he ▸ List.mem_map_of_mem key hv)

theorem eq_of_perm_of_key_lt (key : ℕ × ℕ → ℕ) {l1 l2 : List (ℕ × ℕ)}
    (hperm : l1.Perm l2) (h1 : l1.Pairwise (fun u v => key u < key v))
    (h2 : l2.Pairwise (fun u v => key u < key v)) : l1 = l2 := by
  haveI : IsAntisymm (ℕ × ℕ) (fun u v => key u < key v) :=
    ⟨fun a b hab hba => absurd (lt_trans hab hba) (lt_irrefl _)⟩
  exact List.eq_of_perm_of_sorted hperm h1 h2

/-- The Jaro matching window `max(len a, len b) / 2 - 1` (spec 4.6),
with truncated subtraction giving the minimum of 0. -/
def matchWindow (a b : List ℕ) : ℕ := max a.length b.length / 2 - 1

/-- Eligibility of right index `j` for left index `i`: equal characters
and indices no farther apart than the matching window. -/
def jaroE (a b : List ℕ) (i j : ℕ) : Bool :=
  decide (a.getD i 0 = b.getD j 0) &&
    (decide (i ≤ j + matchWindow a b) && decide (j ≤ i + matchWindow a b))

/-- The greedily matched index pairs of the Jaro algorithm. -/
def jaroPairs (a b : List ℕ) : List (ℕ × ℕ) :=
  gmatch (jaroE a b) (List.range a.length) (List.range b.length)

/-- The number of matched characters `m`. -/
def jaroM (a b : List ℕ) : ℕ := (jaroPairs a b).length

/-- Matched characters read in left-string order. -/
def jaroS1 (a b : List ℕ) : List ℕ :=
  (jaroPairs a b).map (fun q => a.getD q.1 0)

/-- Matched characters read in right-string order. -/
def jaroS2 (a b : List ℕ) : List ℕ :=
  (sortByKey (fun q => q.2) (jaroPairs a b)).map (fun q => b.getD q.2 0)

/-- Position-wise disagreements between two sequences
(half-transposition count). -/
def mismatches : List ℕ → List ℕ → ℕ
  | x :: xs, y :: ys => (if x = y then 0 else 1) + mismatches xs ys
  | _, _ => 0

/-- The transposition count `t`: half-transpositions halved (spec 4.6). -/
def jaroT (a b : List ℕ) : ℚ := (mismatches (jaroS1 a b) (jaroS2 a b) : ℚ) / 2

/-- Modelled from the spec: `strsim::jaro` is absent from `src/`.
`(m/|a| + m/|b| + (m-t)/m) / 3`; `1` when both inputs are empty, `0` when
nothing matches (spec 4.6). -/
def jaro (a b : List ℕ) : ℚ :=
  if a.length = 0 ∧ b.length = 0 then 1
  else if jaroM a b = 0 then 0
  else
    ((jaroM a b : ℚ) / (a.length : ℚ) + (jaroM a b : ℚ) / (b.length : ℚ) +
      ((jaroM a b : ℚ) - jaroT a b) / (jaroM a b : ℚ)) / 3

/-- Length of the common prefix of two sequences. -/
def commonPrefixLen : List ℕ → List ℕ → ℕ
  | x :: xs, y :: ys => if x = y then commonPrefixLen xs ys + 1 else 0
  | _, _ => 0

/-- Modelled from the spec: `strsim::jaro_winkler` is absent from `src/`.
Jaro plus the prefix boost `l * p * (1 - jaro)` with `l` the common prefix
length capped at 4 and `p = 0.1`, applied only when the base Jaro
similarity exceeds `0.7` (spec 4.7). -/
def jaro_winkler (a b : List ℕ) : ℚ :=
  if 7 / 10 < jaro a b then
    jaro a b +
      ((min (commonPrefixLen a b) 4 : ℕ) : ℚ) * (1 / 10) * (1 - jaro a b)
  else jaro a b

theorem jaroM_le_left (a b : List ℕ) : jaroM a b ≤ a.length := by
  have h1 := (gmatch_fst_sublist (jaroE a b) (List.range a.length)
    (List.range b.length)).length_le
  simpa [jaroM, jaroPairs] using h1

theorem jaroM_le_right (a b : List ℕ) : jaroM a b ≤ b.length := by
  have h1 := gmatch_length_le_pool (jaroE a b) (List.range a.length)
    (List.range b.length)
  simpa [jaroM, jaroPairs] using h1

theorem jaroT_nonneg (a b : List ℕ) : 0 ≤ jaroT a b := by
  rw [jaroT]
  positivity

theorem jaro_le_one (a b : List ℕ) : jaro a b ≤ 1 := by
  rw [jaro]
  split
  · exact le_refl 1
  split
  · norm_num
  rename_i hne hm
  have hm1 : 1 ≤ jaroM a b := Nat.one_le_iff_ne_zero.mpr hm
  have hma := jaroM_le_left a b
  have hmb := jaroM_le_right a b
  have hmQ : (1 : ℚ) ≤ (jaroM a b : ℚ) := by exact_mod_cast hm1
  have hmaQ : (jaroM a b : ℚ) ≤ (a.length : ℚ) := by exact_mod_cast hma
  have hmbQ : (jaroM a b : ℚ) ≤ (b.length : ℚ) := by exact_mod_cast hmb
  have ht := jaroT_nonneg a b
  have h1 : (jaroM a b : ℚ) / (a.length : ℚ) ≤ 1 :=
    (div_le_one (by linarith)).mpr hmaQ
  have h2 : (jaroM a b : ℚ) / (b.length : ℚ) ≤ 1 :=
    (div_le_one (by linarith)).mpr hmbQ
  have h3 : ((jaroM a b : ℚ) - jaroT a b) / (jaroM a b : ℚ) ≤ 1 :=
    (div_le_one (by linarith)).mpr (by linarith)
  linarith

theorem mismatches_symm : ∀ s t : List ℕ, mismatches s t = mismatches t s := by
  intro s
  induction s with
  | nil =>
      intro t
      cases t <;> rfl
  | cons x xs ih =>
      intro t
      cases t with
      | nil => rfl
      | cons y ys =>
          show (if x = y then 0 else 1) + mismatches xs ys =
            (if y = x then 0 else 1) + mismatches ys xs
          rw [delta_symm, ih ys]

theorem commonPrefixLen_symm :
    ∀ a b : List ℕ, commonPrefixLen a b = commonPrefixLen b a := by
  intro a
  induction a with
  | nil =>
      intro b
      cases b <;> rfl
  | cons x xs ih =>
      intro b
      cases b with
      | nil => rfl
      | cons y ys =>
          show (if x = y then commonPrefixLen xs ys + 1 else 0) =
            (if y = x then commonPrefixLen ys xs + 1 else 0)
          by_cases h : x = y
          · rw [if_pos h, if_pos h.symm, ih ys]
          · rw [if_neg h, if_neg (fun h' => h h'.symm)]

theorem jaroE_swap (a b : List ℕ) :
    (fun j i => jaroE a b i j) = jaroE b a := by
  funext j i
  simp only [jaroE, matchWindow, Nat.max_comm b.length a.length]
  rw [Bool.and_comm (decide (j ≤ i + _)) (decide (i ≤ j + _))]
  congr 1
  exact decide_eq_decide.mpr eq_comm

theorem jaroPairs_perm (a b : List ℕ) :
    (jaroPairs b a).Perm ((jaroPairs a b).map Prod.swap) := by
  rw [jaroPairs, jaroPairs, ← jaroE_swap a b]
  exact gmatch_dual (jaroE a b) (List.range a.length) (List.range b.length)

theorem jaroM_symm (a b : List ℕ) : jaroM a b = jaroM b a := by
  rw [jaroM, jaroM, (jaroPairs_perm a b).length_eq, List.length_map]

theorem jaroPairs_fst_pairwise (a b : List ℕ) :
    (jaroPairs a b).Pairwise (fun u v => u.1 < v.1) :=
  List.pairwise_map.mp
    (List.Pairwise.sublist
      (gmatch_fst_sublist (jaroE a b) (List.range a.length)
        (List.range b.length))
      (List.pairwise_lt_range a.length))

theorem jaroPairs_snd_nodup (a b : List ℕ) :
    ((jaroPairs a b).map Prod.snd).Nodup :=
  gmatch_snd_nodup (jaroE a b) (List.range a.length) (List.range b.length)
    (List.nodup_range b.length)

/-- Identity A of the symmetry proof: the dual pair list is the original
one sorted by right index, with components swapped. -/
theorem jaroPairs_swap_eq (a b : List ℕ) :
    jaroPairs b a =
      (sortByKey (fun q => q.2) (jaroPairs a b)).map Prod.swap := by
  apply eq_of_perm_of_key_lt (fun q => q.1)
  · exact (jaroPairs_perm a b).trans
      ((sortByKey_perm (fun q => q.2) (jaroPairs a b)).map Prod.swap).symm
  · exact jaroPairs_fst_pairwise b a
  · rw [List.pairwise_map]
    refine pairwise_lt_of_le_nodup (fun q => q.2) _
      (sortByKey_pairwise (fun q => q.2) (jaroPairs a b)) ?_
    exact ((sortByKey_perm (fun q => q.2) (jaroPairs a b)).map
      Prod.snd).nodup_iff.mpr (jaroPairs_snd_nodup a b)

/-- Identity B of the symmetry proof: sorting the dual pair list by right
index recovers the original list, with components swapped. -/
theorem sort_jaroPairs_swap_eq (a b : List ℕ) :
    sortByKey (fun q => q.2) (jaroPairs b a) = (jaroPairs a b).map Prod.swap := by
  apply eq_of_perm_of_key_lt (fun q => q.2)
  · exact (sortByKey_perm (fun q => q.2) (jaroPairs b a)).trans
      (jaroPairs_perm a b)
  · refine pairwise_lt_of_le_nodup (fun q => q.2) _
      (sortByKey_pairwise (fun q => q.2) (jaroPairs b a)) ?_
    exact ((sortByKey_perm (fun q => q.2) (jaroPairs b a)).map
      Prod.snd).nodup_iff.mpr (jaroPairs_snd_nodup b a)
  · rw [List.pairwise_map]
    exact (jaroPairs_fst_pairwise a b).imp (fun h => h)

theorem jaroS1_symm (a b : List ℕ) : jaroS1 b a = jaroS2 a b := by
  rw [jaroS1, jaroPairs_swap_eq a b, jaroS2, List.map_map]
  rfl

theorem jaroS2_symm (a b : List ℕ) : jaroS2 b a = jaroS1 a b := by
  rw [jaroS2, sort_jaroPairs_swap_eq a b, jaroS1, List.map_map]
  rfl

theorem jaroT_symm (a b : List ℕ) : jaroT a b = jaroT b a := by
  rw [jaroT, jaroT, jaroS1_symm a b, jaroS2_symm a b,
    mismatches_symm]

theorem jaro_symm (a b : List ℕ) : jaro a b = jaro b a := by
  rw [jaro, jaro, jaroM_symm a b, jaroT_symm a b]
  by_cases hab : a.length = 0 ∧ b.length = 0
  · have hba : b.length = 0 ∧ a.length = 0 := ⟨hab.2, hab.1⟩
    rw [if_pos hab, if_pos hba]
  · have hba : ¬(b.length = 0 ∧ a.length = 0) := fun h => hab ⟨h.2, h.1⟩
    rw [if_neg hab, if_neg hba]
    by_cases hm : jaroM b a = 0
    · rw [if_pos hm, if_pos hm]
    · rw [if_neg hm, if_neg hm]
      ring

theorem jaro_winkler_symm (a b : List ℕ) :
    jaro_winkler a b = jaro_winkler b a := by
  rw [jaro_winkler, jaro_winkler, jaro_symm a b, commonPrefixLen_symm a b]

theorem sorensen_dice_symm (a b : List ℕ) :
    sorensen_dice a b = sorensen_dice b a := by
  rw [sorensen_dice, sorensen_dice, Multiset.inter_comm,
    Nat.add_comm (bigrams a).length (bigrams b).length]
  by_cases h0 : (bigrams b).length + (bigrams a).length = 0
  · rw [if_pos h0, if_pos h0]
    by_cases heq : a = b
    · rw [if_pos heq, if_pos heq.symm]
    · rw [if_neg heq, if_neg (fun h => heq h.symm)]
  · rw [if_neg h0, if_neg h0]

theorem normalized_levenshtein_symm (a b : List ℕ) :
    normalized_levenshtein a b = normalized_levenshtein b a := by
  rw [normalized_levenshtein, normalized_levenshtein,
    levenshtein_symm a b, max_comm (a.length : ℚ) (b.length : ℚ)]
  by_cases hab : a.length = 0 ∧ b.length = 0
  · have hba : b.length = 0 ∧ a.length = 0 := ⟨hab.2, hab.1⟩
    rw [if_pos hab, if_pos hba]
  · have hba : ¬(b.length = 0 ∧ a.length = 0) := fun h => hab ⟨h.2, h.1⟩
    rw [if_neg hab, if_neg hba]

theorem normalized_damerau_levenshtein_symm (a b : List ℕ) :
    normalized_damerau_levenshtein a b = normalized_damerau_levenshtein b a := by
  rw [normalized_damerau_levenshtein, normalized_damerau_levenshtein,
    damerau_symm a b, max_comm (a.length : ℚ) (b.length : ℚ)]
  by_cases hab : a.length = 0 ∧ b.length = 0
  · have hba : b.length = 0 ∧ a.length = 0 := ⟨hab.2, hab.1⟩
    rw [if_pos hab, if_pos hba]
  · have hba : ¬(b.length = 0 ∧ a.length = 0) := fun h => hab ⟨h.2, h.1⟩
    rw [if_neg hab, if_neg hba]

end strsim

/-! ### The pyfunction wrappers of `src/lib.rs`

`single` mirrors the `single` module: each pyfunction takes two strings
and calls the corresponding `strsim` function on their scalar-value
sequences.  `vectorized` mirrors the `vectorized` module: `vectorize`
allocates a worker pool, maps the single-pair function over the candidate
list in input order, and propagates a pool-allocation failure as an
error. -/

namespace single

def damerau_levenshtein (a b : String) : ℕ :=
  strsim.damerau_levenshtein (str a) (str b)

def jaro (a b : String) : ℚ := strsim.jaro (str a) (str b)

def jaro_winkler (a b : String) : ℚ := strsim.jaro_winkler (str a) (str b)

def levenshtein (a b : String) : ℕ := strsim.levenshtein (str a) (str b)

def normalized_damerau_levenshtein (a b : String) : ℚ :=
  strsim.normalized_damerau_levenshtein (str a) (str b)

def normalized_levenshtein (a b : String) : ℚ :=
  strsim.normalized_levenshtein (str a) (str b)

def osa_distance (a b : String) : ℕ := strsim.osa_distance (str a) (str b)

def sorensen_dice (a b : String) : ℚ := strsim.sorensen_dice (str a) (str b)

end single

namespace vectorized

/-- Modelled from the spec: the worker pool of `create_thread_pool` comes
from a threading library that is absent from `src/`.  Spec 4.9/7: pool
construction fails exactly for an invalid worker count (such as `0`),
surfaced to the caller as a single allocation error. -/
def create_thread_pool (n : ℕ) : Except String Unit :=
  if n = 0 then Except.error "failed to allocate threads" else Except.ok ()

/-- `vectorize` of `src/lib.rs`: build the pool, then map the single-pair
function over the candidates.  Modelled from the spec: the parallel
iterator of the absent threading library collects results in candidate
input order (spec 4.9: order is determined by candidate index, not
completion time), so its effect is the order-preserving map. -/
def vectorize {α : Type} (f : List ℕ → List ℕ → α) (n : ℕ) (a : List ℕ)
    (bs : List (List ℕ)) : Except String (List α) :=
  (create_thread_pool n).map (fun _ => bs.map (fun b => f a b))

def damerau_levenshtein (n : ℕ) (a : String) (bs : List String) :
    Except String (List ℕ) :=
  vectorize strsim.damerau_levenshtein n (str a) (bs.map str)

def jaro (n : ℕ) (a : String) (bs : List String) : Except String (List ℚ) :=
  vectorize strsim.jaro n (str a) (bs.map str)

def jaro_winkler (n : ℕ) (a : String) (bs : List String) :
    Except String (List ℚ) :=
  vectorize strsim.jaro_winkler n (str a) (bs.map str)

def levenshtein (n : ℕ) (a : String) (bs : List String) :
    Except String (List ℕ) :=
  vectorize strsim.levenshtein n (str a) (bs.map str)

def normalized_damerau_levenshtein (n : ℕ) (a : String) (bs : List String) :
    Except String (List ℚ) :=
  vectorize strsim.normalized_damerau_levenshtein n (str a) (bs.map str)

def normalized_levenshtein (n : ℕ) (a : String) (bs : List String) :
    Except String (List ℚ) :=
  vectorize strsim.normalized_levenshtein n (str a) (bs.map str)

def osa_distance (n : ℕ) (a : String) (bs : List String) :
    Except String (List ℕ) :=
  vectorize strsim.osa_distance n (str a) (bs.map str)

def sorensen_dice (n : ℕ) (a : String) (bs : List String) :
    Except String (List ℚ) :=
  vectorize strsim.sorensen_dice n (str a) (bs.map str)

end vectorized

/-! ### Supporting facts about the sequencer -/

theorem str_injective {a b : String} (h : str a = str b) : a = b := by
  apply String.ext
  have hinj : Function.Injective Char.toNat := by
    intro c d hcd
    have h2 := congrArg Char.ofNat hcd
    rwa [Char.ofNat_toNat, Char.ofNat_toNat] at h2
  exact List.map_injective_iff.mpr hinj h

theorem str_length (s : String) : (str s).length = s.length := by
  rw [str, List.length_map]
  rfl

/-! ### The claims -/

/-- C10: for every pair of strings, the OSA distance never exceeds the
Levenshtein distance, since OSA permits every Levenshtein edit plus the
adjacent transposition. -/
theorem osa_never_exceeds_levenshtein (a b : String) :
    single.osa_distance a b ≤ single.levenshtein a b :=
  strsim.osa_le_levenshtein (str a) (str b)

/-- C8: `levenshtein` against the empty string equals the other string's
number of Unicode scalar values, not its byte length; the two-byte
character `é` counts as one unit of edit cost. -/
theorem levenshtein_empty_codepoints :
    (∀ s : String, single.levenshtein s "" = s.length ∧
      single.levenshtein "" s = s.length) ∧
    single.levenshtein "é" "" = 1 ∧ "é".utf8ByteSize = 2 ∧
    single.levenshtein "é" "" ≠ "é".utf8ByteSize := by
  have he1 : single.levenshtein "é" "" = 1 := by
    show strsim.levenshtein (str "é") (str "") = 1
    rw [show str "" = [] from rfl, strsim.levenshtein_nil_right]
    rfl
  refine ⟨fun s => ⟨?_, ?_⟩, he1, rfl, by rw [he1]; decide⟩
  · show strsim.levenshtein (str s) (str "") = s.length
    rw [show str "" = [] from rfl, strsim.levenshtein_nil_right, str_length]
  · show strsim.levenshtein (str "") (str s) = s.length
    rw [show str "" = [] from rfl, strsim.levenshtein_nil_left, str_length]

/-- C7: all eight single-pair metrics are symmetric in their two string
arguments. -/
theorem all_metrics_symmetric :
    (∀ a b : String, single.levenshtein a b = single.levenshtein b a) ∧
    (∀ a b : String,
      single.damerau_levenshtein a b = single.damerau_levenshtein b a) ∧
    (∀ a b : String, single.osa_distance a b = single.osa_distance b a) ∧
    (∀ a b : String, single.jaro a b = single.jaro b a) ∧
    (∀ a b : String, single.jaro_winkler a b = single.jaro_winkler b a) ∧
    (∀ a b : String,
      single.normalized_levenshtein a b = single.normalized_levenshtein b a) ∧
    (∀ a b : String, single.normalized_damerau_levenshtein a b =
      single.normalized_damerau_levenshtein b a) ∧
    (∀ a b : String, single.sorensen_dice a b = single.sorensen_dice b a) :=
  ⟨fun a b => strsim.levenshtein_symm (str a) (str b),
    fun a b => strsim.damerau_symm (str a) (str b),
    fun a b => strsim.osa_symm (str a) (str b),
    fun a b => strsim.jaro_symm (str a) (str b),
    fun a b => strsim.jaro_winkler_symm (str a) (str b),
    fun a b => strsim.normalized_levenshtein_symm (str a) (str b),
    fun a b => strsim.normalized_damerau_levenshtein_symm (str a) (str b),
    fun a b => strsim.sorensen_dice_symm (str a) (str b)⟩

/-- C5: the triangle inequality holds for `levenshtein` and for
`damerau_levenshtein`, while `osa_distance` violates it on the
adjacent-transposition triple `"ca"`, `"ac"`, `"abc"`. -/
theorem edit_distance_triangle :
    (∀ a b c : String,
      single.levenshtein a c ≤ single.levenshtein a b + single.levenshtein b c) ∧
    (∀ a b c : String, single.damerau_levenshtein a c ≤
      single.damerau_levenshtein a b + single.damerau_levenshtein b c) ∧
    (∃ a b c : String,
      single.osa_distance a b + single.osa_distance b c <
        single.osa_distance a c) := by
  refine ⟨fun a b c => strsim.levenshtein_triangle (str a) (str b) (str c),
    fun a b c => strsim.damerau_triangle (str a) (str b) (str c),
    ⟨"ca", "ac", "abc", ?_⟩⟩
  show strsim.osa_distance (str "ca") (str "ac") +
      strsim.osa_distance (str "ac") (str "abc") <
      strsim.osa_distance (str "ca") (str "abc")
  rw [show str "ca" = [99, 97] from rfl, show str "ac" = [97, 99] from rfl,
    show str "abc" = [97, 98, 99] from rfl, strsim.osa_ca_abc]
  have h1 : strsim.osa_distance [99, 97] [97, 99] = 1 := by
    simp [strsim.osa_distance]
  have h2 : strsim.osa_distance [97, 99] [97, 98, 99] = 1 := by
    simp [strsim.osa_distance]
  omega

/-- C6: the unrestricted Damerau-Levenshtein distance never exceeds the
OSA distance, and on `"ca"`/`"abc"` they diverge: 2 versus 3. -/
theorem damerau_le_osa_with_divergence :
    (∀ a b : String,
      single.damerau_levenshtein a b ≤ single.osa_distance a b) ∧
    single.damerau_levenshtein "ca" "abc" = 2 ∧
    single.osa_distance "ca" "abc" = 3 := by
  refine ⟨fun a b => strsim.damerau_le_osa (str a) (str b), ?_, ?_⟩
  · show strsim.damerau_levenshtein (str "ca") (str "abc") = 2
    rw [show str "ca" = [99, 97] from rfl,
      show str "abc" = [97, 98, 99] from rfl]
    exact strsim.damerau_ca_abc
  · show strsim.osa_distance (str "ca") (str "abc") = 3
    rw [show str "ca" = [99, 97] from rfl,
      show str "abc" = [97, 98, 99] from rfl]
    exact strsim.osa_ca_abc

/-- C4: both normalized similarities lie in `[0, 1]`, equal `1` exactly
when the strings are equal, and are `1` on two empty strings. -/
theorem normalized_metrics_range_one_iff (a b : String) :
    (0 ≤ single.normalized_levenshtein a b ∧
      single.normalized_levenshtein a b ≤ 1 ∧
      (single.normalized_levenshtein a b = 1 ↔ a = b)) ∧
    (0 ≤ single.normalized_damerau_levenshtein a b ∧
      single.normalized_damerau_levenshtein a b ≤ 1 ∧
      (single.normalized_damerau_levenshtein a b = 1 ↔ a = b)) ∧
    single.normalized_levenshtein "" "" = 1 ∧
    single.normalized_damerau_levenshtein "" "" = 1 := by
  have h1 := strsim.normalized_props strsim.levenshtein
    strsim.levenshtein_eq_zero_iff strsim.levenshtein_le_max (str a) (str b)
  have h2 := strsim.normalized_props strsim.damerau_levenshtein
    strsim.damerau_eq_zero_iff strsim.damerau_le_max (str a) (str b)
  refine ⟨⟨h1.1, h1.2.1, ?_⟩, ⟨h2.1, h2.2.1, ?_⟩, ?_, ?_⟩
  · exact ⟨fun h => str_injective (h1.2.2.mp h),
      fun h => h1.2.2.mpr (by rw [h])⟩
  · exact ⟨fun h => str_injective (h2.2.2.mp h),
      fun h => h2.2.2.mpr (by rw [h])⟩
  · show strsim.normalized_levenshtein (str "") (str "") = 1
    rw [strsim.normalized_levenshtein, if_pos ⟨rfl, rfl⟩]
  · show strsim.normalized_damerau_levenshtein (str "") (str "") = 1
    rw [strsim.normalized_damerau_levenshtein, if_pos ⟨rfl, rfl⟩]

/-- C2: with worker count 0 every batch operation fails with the
worker-pool allocation error and returns no result list; in particular
each of the eight batch metrics fails on reference `"a"`, candidates
`["b"]`. -/
theorem batch_zero_workers_error :
    (∀ {α : Type} (f : List ℕ → List ℕ → α) (a : String) (bs : List String),
      vectorized.vectorize f 0 (str a) (bs.map str) =
        Except.error "failed to allocate threads") ∧
    vectorized.damerau_levenshtein 0 "a" ["b"] =
      Except.error "failed to allocate threads" ∧
    vectorized.jaro 0 "a" ["b"] = Except.error "failed to allocate threads" ∧
    vectorized.jaro_winkler 0 "a" ["b"] =
      Except.error "failed to allocate threads" ∧
    vectorized.levenshtein 0 "a" ["b"] =
      Except.error "failed to allocate threads" ∧
    vectorized.normalized_damerau_levenshtein 0 "a" ["b"] =
      Except.error "failed to allocate threads" ∧
    vectorized.normalized_levenshtein 0 "a" ["b"] =
      Except.error "failed to allocate threads" ∧
    vectorized.osa_distance 0 "a" ["b"] =
      Except.error "failed to allocate threads" ∧
    vectorized.sorensen_dice 0 "a" ["b"] =
      Except.error "failed to allocate threads" :=
  ⟨fun _ _ _ => rfl, rfl, rfl, rfl, rfl, rfl, rfl, rfl, rfl⟩

/-- C1: with a positive worker count the batch operation succeeds and
returns one result per candidate, in candidate order, each equal to the
single-pair metric of the reference and that candidate, and the result
does not depend on the worker count. -/
theorem batch_refines_single {α : Type} (f : List ℕ → List ℕ → α) (n : ℕ)
    (r : String) (cs : List String) (h : 0 < n) :
    ∃ rs : List α,
      vectorized.vectorize f n (str r) (cs.map str) = Except.ok rs ∧
      rs.length = cs.length ∧
      (∀ i : ℕ, rs[i]? = ((cs.map str)[i]?).map (fun c => f (str r) c)) ∧
      vectorized.vectorize f n (str r) (cs.map str) =
        vectorized.vectorize f 1 (str r) (cs.map str) := by
  have hpool : vectorized.create_thread_pool n = Except.ok () := by
    rw [vectorized.create_thread_pool, if_neg (by omega)]
  have hpool1 : vectorized.create_thread_pool 1 = Except.ok () := rfl
  refine ⟨(cs.map str).map (fun c => f (str r) c), ?_, ?_, ?_, ?_⟩
  · rw [vectorized.vectorize, hpool]
    rfl
  · rw [List.length_map, List.length_map]
  · intro i
    rw [List.getElem?_map]
  · rw [vectorized.vectorize, vectorized.vectorize, hpool, hpool1]

theorem batch_refines_single_witness :
    0 < 4 ∧ ∃ rs : List ℕ,
      vectorized.vectorize strsim.levenshtein 4 (str "hello")
          (["hello", "hallo", "help", "xyz"].map str) = Except.ok rs ∧
      rs.length = (["hello", "hallo", "help", "xyz"] : List String).length ∧
      (∀ i : ℕ, rs[i]? =
        ((["hello", "hallo", "help", "xyz"].map str)[i]?).map
          (fun c => strsim.levenshtein (str "hello") c)) ∧
      vectorized.vectorize strsim.levenshtein 4 (str "hello")
          (["hello", "hallo", "help", "xyz"].map str) =
        vectorized.vectorize strsim.levenshtein 1 (str "hello")
          (["hello", "hallo", "help", "xyz"].map str) :=
  ⟨by norm_num, batch_refines_single strsim.levenshtein 4 "hello"
    ["hello", "hallo", "help", "xyz"] (by norm_num)⟩

/-- C3: the Jaro-Winkler prefix boost is applied exactly when the base
Jaro similarity exceeds the `0.7` threshold; at or below it the result is
the unmodified Jaro similarity. -/
theorem jaro_winkler_boost_threshold (a b : String) :
    (single.jaro a b ≤ 7 / 10 →
      single.jaro_winkler a b = single.jaro a b) ∧
    (7 / 10 < single.jaro a b →
      single.jaro_winkler a b = single.jaro a b +
        ((min (strsim.commonPrefixLen (str a) (str b)) 4 : ℕ) : ℚ) *
          (1 / 10) * (1 - single.jaro a b)) := by
  constructor
  · intro h
    have h' : strsim.jaro (str a) (str b) ≤ 7 / 10 := h
    show strsim.jaro_winkler (str a) (str b) = strsim.jaro (str a) (str b)
    rw [strsim.jaro_winkler, if_neg (not_lt.mpr h')]
  · intro h
    have h' : 7 / 10 < strsim.jaro (str a) (str b) := h
    show strsim.jaro_winkler (str a) (str b) = strsim.jaro (str a) (str b) +
      ((min (strsim.commonPrefixLen (str a) (str b)) 4 : ℕ) : ℚ) *
        (1 / 10) * (1 - strsim.jaro (str a) (str b))
    rw [strsim.jaro_winkler, if_pos h']

theorem jaro_winkler_boost_threshold_witness :
    single.jaro "ab" "cd" ≤ 7 / 10 ∧
      single.jaro_winkler "ab" "cd" = single.jaro "ab" "cd" := by
  have hj : single.jaro "ab" "cd" = 0 := by
    show strsim.jaro (str "ab") (str "cd") = 0
    rw [strsim.jaro, if_neg (by decide), if_pos (by decide)]
  exact ⟨by rw [hj]; norm_num,
    (jaro_winkler_boost_threshold "ab" "cd").1 (by rw [hj]; norm_num)⟩

/-- C9: whenever the two strings share a non-empty common prefix and the
base Jaro similarity exceeds the boost threshold, Jaro-Winkler is at
least Jaro. -/
theorem jaro_winkler_ge_jaro (a b : String)
    (hpre : 0 < strsim.commonPrefixLen (str a) (str b))
    (hthr : 7 / 10 < single.jaro a b) :
    single.jaro a b ≤ single.jaro_winkler a b := by
  have hthr' : 7 / 10 < strsim.jaro (str a) (str b) := hthr
  show strsim.jaro (str a) (str b) ≤ strsim.jaro_winkler (str a) (str b)
  rw [strsim.jaro_winkler, if_pos hthr']
  have hle := strsim.jaro_le_one (str a) (str b)
  have hnn : (0 : ℚ) ≤
      ((min (strsim.commonPrefixLen (str a) (str b)) 4 : ℕ) : ℚ) *
        (1 / 10) * (1 - strsim.jaro (str a) (str b)) := by
    apply mul_nonneg (mul_nonneg (by positivity) (by norm_num))
    linarith
  linarith

theorem jaro_winkler_ge_jaro_witness :
    0 < strsim.commonPrefixLen (str "aa") (str "aa") ∧
      7 / 10 < single.jaro "aa" "aa" ∧
      single.jaro "aa" "aa" ≤ single.jaro_winkler "aa" "aa" := by
  have hj : single.jaro "aa" "aa" = 1 := by
    show strsim.jaro (str "aa") (str "aa") = 1
    rw [strsim.jaro, if_neg (by decide), if_neg (by decide),
      show strsim.jaroM (str "aa") (str "aa") = 2 from rfl]
    have ht : strsim.jaroT (str "aa") (str "aa") = 0 := by
      rw [strsim.jaroT,
        show strsim.mismatches (strsim.jaroS1 (str "aa") (str "aa"))
          (strsim.jaroS2 (str "aa") (str "aa")) = 0 from rfl]
      norm_num
    rw [ht, show (str "aa").length = 2 from rfl]
    norm_num
  refine ⟨by decide, by rw [hj]; norm_num,
    jaro_winkler_ge_jaro "aa" "aa" (by decide) (by rw [hj]; norm_num)⟩
